import Mathlib

/-!
Verification of the length-regulation and series-prediction core of the
ForwardTacotron acoustic model (`models/forward_tacotron.py`).

Durations are modelled as exact rationals (`ℚ`); tensors as lists
(batch = outer list, sequence position = inner list).  `numpy`'s
`astype('int')` truncates toward zero, modelled by `truncQ`.  The in-place
clamp `duration[duration < 0] = 0` (line 28) is a visible mutation of the
caller's tensor; it is modelled by explicit state passing: `buildIndexSt`
returns the post-call state of the `duration` argument together with the
computed index.
-/

set_option linter.unusedVariables false

namespace LightTTS

/-- Truncation toward zero, the semantics of `numpy.ndarray.astype('int')`
on a real value. -/
def truncQ (q : ℚ) : ℤ := if q < 0 then -⌊-q⌋ else ⌊q⌋

/-- Line 28, `duration[duration < 0] = 0`, applied to one batch row:
every negative entry is replaced by `0`. -/
def clampRow (d : List ℚ) : List ℚ := d.map (fun v => if v < 0 then 0 else v)

/-- Line 28 over the full batch tensor. -/
def clampBatch (ds : List (List ℚ)) : List (List ℚ) := ds.map clampRow

/-- Inclusive prefix sums starting from accumulator `a`
(`torch.cumsum(dim=1)` on one row). -/
def cumsumFrom (a : ℚ) : List ℚ → List ℚ
  | [] => []
  | v :: rest => (a + v) :: cumsumFrom (a + v) rest

/-- `torch.cumsum(dim=1)` on one batch row. -/
def cumsum (d : List ℚ) : List ℚ := cumsumFrom 0 d

/-- Line 29 on one (already clamped) row:
`duration.cumsum(1) ... .astype('int')`. -/
def cumTrunc (d : List ℚ) : List ℤ := (cumsum d).map truncQ

/-- `numpy` slice assignment `a[lo:hi] = v` on a 1-D integer array,
position by position starting at absolute position `f0`.  (In `build_index`
the bounds are cumulative clamped durations, hence never negative, so the
from-the-end meaning of negative `numpy` indices never arises.) -/
def sliceAssignFrom (f0 : ℕ) (lo hi v : ℤ) : List ℤ → List ℤ
  | [] => []
  | x :: rest =>
      (if lo ≤ (f0 : ℤ) ∧ (f0 : ℤ) < hi then v else x) ::
        sliceAssignFrom (f0 + 1) lo hi v rest

/-- `numpy` slice assignment `a[lo:hi] = v` on a 1-D integer array. -/
def sliceAssign (a : List ℤ) (lo hi v : ℤ) : List ℤ := sliceAssignFrom 0 lo hi v a

/-- The inner loop of `build_index` (lines 34-38) over one batch row:
`pos = 0; for j in range(T): index[pos:tot[j]] = j; pos = tot[j]`.
`j0` is the index of the first remaining token; the returned pair is the
array together with the final value of `pos`. -/
def buildRowLoop : List ℤ → List ℤ → ℤ → ℕ → List ℤ × ℤ
  | [], a, pos, _ => (a, pos)
  | c :: rest, a, pos, j0 => buildRowLoop rest (sliceAssign a pos c (j0 : ℤ)) c (j0 + 1)

/-- Lines 33-39 for one batch row: run the loop on a zero-initialised array
of length `maxDur` (line 31, `np.zeros`), then the trailing fill
`index[pos:] = j` (line 39) with the loop's last `j = T - 1`.  (For an empty
row the source raises `NameError`; every claim assumes ≥ 1 token.) -/
def buildRow (tot : List ℤ) (maxDur : ℕ) : List ℤ :=
  let st := buildRowLoop tot (List.replicate maxDur 0) 0 0
  sliceAssign st.1 st.2 (maxDur : ℤ) ((tot.length : ℤ) - 1)

/-- Lines 29-40 on the already clamped batch: cumulative truncated
durations, `max_duration = int(tot_duration.max())` (line 30; all entries
are ≥ 0 after the clamp, so seeding the fold with 0 agrees with `numpy`'s
max on every reachable nonempty array), then one row of the index per
batch row. -/
def build_index_core (ds : List (List ℚ)) : List (List ℤ) :=
  let tot : List (List ℤ) := ds.map cumTrunc
  let maxDur := ((tot.map (fun (row : List ℤ) => row.foldl max 0)).foldl max 0).toNat
  tot.map (fun (row : List ℤ) => buildRow row maxDur)

/-- `LengthRegulator.build_index` (lines 26-40) with its frame effect made
explicit: line 28 mutates the caller's `duration` tensor in place; the
first component is the post-call state of that argument, the second the
returned index.  The third (feature) dimension of the source's index array
repeats the same token index across channels and is dropped. -/
def buildIndexSt (ds : List (List ℚ)) : List (List ℚ) × List (List ℤ) :=
  let ds' := clampBatch ds
  (ds', build_index_core ds')

/-- The index returned by `LengthRegulator.build_index`. -/
def build_index (ds : List (List ℚ)) : List (List ℤ) := (buildIndexSt ds).2

/-- The value `int(tot_duration.max())` of line 30 (computed from the
caller's view: clamp, cumulative sum, truncate, maximise). -/
def maxDuration (ds : List (List ℚ)) : ℤ :=
  (((clampBatch ds).map cumTrunc).map (fun (row : List ℤ) => row.foldl max 0)).foldl max 0

/-- Number of output frames produced by the regulator for batch `ds`. -/
def frameCount (ds : List (List ℚ)) : ℕ := (maxDuration ds).toNat

/-- `tot_duration` of line 29 for one row of the caller's tensor:
clamp, cumulative sum, truncate. -/
def totRow (d : List ℚ) : List ℤ := cumTrunc (clampRow d)

/-- `LengthRegulator.expand` (lines 42-45) with the frame effect on `dur`
made explicit: `torch.gather(x, 1, idx)` reads, for every output frame,
the feature value of the token the index points at
(`y[i][f] = x[i][idx[i][f]]`; `gather` faults on an out-of-range index,
and the indices are proven in range below). -/
def expandSt {α : Type} (x : List (List α)) (dflt : α) (ds : List (List ℚ)) :
    List (List ℚ) × List (List α) :=
  let st := buildIndexSt ds
  (st.1, (x.zip st.2).map (fun p => p.2.map (fun j => p.1.getD j.toNat dflt)))

/-- `LengthRegulator.expand`'s return value (also `LengthRegulator.forward`). -/
def expand {α : Type} (x : List (List α)) (dflt : α) (ds : List (List ℚ)) :
    List (List α) := (expandSt x dflt ds).2

/-- The token index assigned by `build_index` to output frame `f` for one
row with truncated cumulative durations `tot` (derived closed form, proved
against `buildRow` below): the first token whose cumulative range still
contains `f`, and the last token for frames at or beyond the final
cumulative value. -/
def tokenOf (tot : List ℤ) (f : ℕ) : ℕ :=
  min (tot.findIdx (fun c => decide ((f : ℤ) < c))) (tot.length - 1)

/-- The truncated cumulative duration preceding token `j` (`0` for `j = 0`). -/
def prevTot (tot : List ℤ) (j : ℕ) : ℤ := if j = 0 then 0 else tot.getD (j - 1) 0

/-- Dot product of a weight vector with a feature vector
(the linear part of `nn.Linear(2 * rnn_dims, 1)`). -/
def dot (w v : List ℚ) : ℚ := ((w.zip v).map (fun p => p.1 * p.2)).sum

/-- The tail of `SeriesPredictor.forward` (lines 72-79) on one batch row:
`feats` is that row after embedding and the convolution stack (those keep
the sequence length and are opaque trained weights, abstracted into the
input), `xlen` its valid length.  `pack_padded_sequence` makes the
recurrent layer (`rnn`, an opaque length-preserving sequence function)
process only the first `xlen` positions; `pad_packed_sequence` right-pads
the recurrent output with `padding_value=0.0` vectors (width `dim`) back
to the full length; `self.lin` (weight `w`, bias `b`) and the division by
`alpha` are then applied at every position, padded ones included. -/
def seriesPredictorForward (rnn : List (List ℚ) → List (List ℚ)) (w : List ℚ)
    (b : ℚ) (alpha : ℚ) (dim : ℕ) (feats : List (List ℚ)) (xlen : ℕ) : List ℚ :=
  let r := rnn (feats.take xlen)
  let padded := r ++ List.replicate (feats.length - xlen) (List.replicate dim 0)
  padded.map (fun v => (dot w v + b) / alpha)

/-- Lines 271-273 of `ForwardTacotron.generate`:
`if torch.sum(dur) <= 0: torch.fill_(dur, 2)` on the (batch-1) predicted
duration row. -/
def applyDurFloor (d : List ℚ) : List ℚ :=
  if d.sum ≤ 0 then d.map (fun _ => 2) else d

/-- Lines 264-266 of `ForwardTacotron.generate`:
`if x.size(1) == 0: x = torch.full((1, 1), fill_value=0)` on the (batch-1)
token row. -/
def guardEmptyInput (x : List ℕ) : List ℕ := if x.length = 0 then [0] else x

/-- Modelled from the spec: the inference-mode rounding the spec attributes
to the hard-expansion regulator — "at inference add 0.5 before truncating
to integer" applied to the accumulated durations.  No such offset exists
anywhere in the source; this definition exists only to be compared with
`totRow`/`cumTrunc`, which is what both `forward` and `generate` actually
run. -/
def totRowSpecInfer (d : List ℚ) : List ℤ :=
  (cumsum (clampRow d)).map (fun c => truncQ (c + 1/2))

/-- The regulator call on the training path, line 230 of
`ForwardTacotron.forward`: `x = self.lr(x, dur)`. -/
def forwardRegulate {α : Type} (x : List (List α)) (dflt : α)
    (dur : List (List ℚ)) : List (List ℚ) × List (List α) := expandSt x dflt dur

/-- The regulator call on the inference path, line 294 of
`ForwardTacotron.generate`: `x = self.lr(x, dur)`. -/
def generateRegulate {α : Type} (x : List (List α)) (dflt : α)
    (dur : List (List ℚ)) : List (List ℚ) × List (List α) := expandSt x dflt dur

/-! ### Basic lemmas about the slice assignment and the row loop -/

theorem sliceAssignFrom_length (lo hi v : ℤ) :
    ∀ (a : List ℤ) (f0 : ℕ), (sliceAssignFrom f0 lo hi v a).length = a.length
  | [], _ => rfl
  | x :: rest, f0 => by
      simp [sliceAssignFrom, sliceAssignFrom_length lo hi v rest]

theorem sliceAssign_length (a : List ℤ) (lo hi v : ℤ) :
    (sliceAssign a lo hi v).length = a.length :=
  sliceAssignFrom_length lo hi v a 0

theorem sliceAssignFrom_getD (lo hi v : ℤ) :
    ∀ (a : List ℤ) (f0 f : ℕ),
      (sliceAssignFrom f0 lo hi v a).getD f 0 =
        if f < a.length ∧ lo ≤ ((f0 + f : ℕ) : ℤ) ∧ ((f0 + f : ℕ) : ℤ) < hi
        then v else a.getD f 0
  | [], f0, f => by simp [sliceAssignFrom]
  | x :: rest, f0, 0 => by
      simp [sliceAssignFrom]
  | x :: rest, f0, f + 1 => by
      have ih := sliceAssignFrom_getD lo hi v rest (f0 + 1) f
      simp only [sliceAssignFrom, List.getD_cons_succ, List.length_cons, ih]
      have h1 : ((f0 + 1 + f : ℕ) : ℤ) = ((f0 + (f + 1) : ℕ) : ℤ) := by push_cast; ring
      rw [h1]
      by_cases hc : f < rest.length
      · simp [hc, Nat.succ_lt_succ_iff]
      · simp [hc, Nat.succ_lt_succ_iff]

theorem sliceAssign_getD (a : List ℤ) (lo hi v : ℤ) (f : ℕ) :
    (sliceAssign a lo hi v).getD f 0 =
      if f < a.length ∧ lo ≤ (f : ℤ) ∧ (f : ℤ) < hi then v else a.getD f 0 := by
  have h := sliceAssignFrom_getD lo hi v a 0 f
  simpa using h

theorem buildRowLoop_length :
    ∀ (tot a : List ℤ) (pos : ℤ) (j0 : ℕ),
      (buildRowLoop tot a pos j0).1.length = a.length
  | [], a, pos, j0 => rfl
  | c :: rest, a, pos, j0 => by
      simp [buildRowLoop, buildRowLoop_length rest, sliceAssign_length]

theorem buildRowLoop_pos :
    ∀ (tot a : List ℤ) (pos : ℤ) (j0 : ℕ),
      (buildRowLoop tot a pos j0).2 = tot.getLastD pos
  | [], a, pos, j0 => rfl
  | c :: rest, a, pos, j0 => by
      simp [buildRowLoop, buildRowLoop_pos rest, List.getLastD_eq_getLast?,
        List.getLast?_cons]

/-! ### Chains (nondecreasing cumulative durations) and list maxima -/

theorem chain_le_getLastD {a : ℤ} :
    ∀ {l : List ℤ}, List.Chain (· ≤ ·) a l → a ≤ l.getLastD a
  | [], _ => le_refl a
  | b :: l, h => by
      rcases (List.chain_cons.mp h) with ⟨hab, hl⟩
      calc a ≤ b := hab
        _ ≤ l.getLastD b := chain_le_getLastD hl
        _ = (b :: l).getLastD a := (List.getLastD_cons ..).symm

theorem chain_getD_le {a : ℤ} :
    ∀ {l : List ℤ}, List.Chain (· ≤ ·) a l → ∀ k, k < l.length → a ≤ l.getD k 0
  | [], _, k, hk => absurd hk (by simp)
  | b :: l, h, 0, _ => by
      rcases (List.chain_cons.mp h) with ⟨hab, _⟩; simpa using hab
  | b :: l, h, k + 1, hk => by
      rcases (List.chain_cons.mp h) with ⟨hab, hl⟩
      have := chain_getD_le hl k (by simpa using hk)
      simpa using le_trans hab this

theorem chain_getD_le_getLastD {a : ℤ} :
    ∀ {l : List ℤ}, List.Chain (· ≤ ·) a l →
      ∀ k, k < l.length → l.getD k 0 ≤ l.getLastD a
  | [], _, k, hk => absurd hk (by simp)
  | b :: l, h, 0, _ => by
      rcases (List.chain_cons.mp h) with ⟨_, hl⟩
      rw [List.getD_cons_zero, List.getLastD_cons]
      exact chain_le_getLastD hl
  | b :: l, h, k + 1, hk => by
      rcases (List.chain_cons.mp h) with ⟨_, hl⟩
      rw [List.getD_cons_succ, List.getLastD_cons]
      exact chain_getD_le_getLastD hl k (by simpa using hk)

theorem chain_tail {a b : ℤ} {l : List ℤ} (h : List.Chain (· ≤ ·) a (b :: l)) :
    List.Chain (· ≤ ·) b l := (List.chain_cons.mp h).2

theorem foldl_max_eq_getLastD {a : ℤ} :
    ∀ {l : List ℤ}, List.Chain (· ≤ ·) a l → l.foldl max a = l.getLastD a
  | [], _ => rfl
  | b :: l, h => by
      rcases (List.chain_cons.mp h) with ⟨hab, hl⟩
      have : max a b = b := max_eq_right hab
      simp only [List.foldl_cons, this, List.getLastD_cons]
      exact foldl_max_eq_getLastD hl

theorem le_foldl_max (a : ℤ) : ∀ (l : List ℤ), a ≤ l.foldl max a
  | [] => le_refl a
  | b :: l => le_trans (le_max_left a b) (le_foldl_max (max a b) l)

theorem foldl_max_le_foldl_max {a b : ℤ} (hab : a ≤ b) :
    ∀ (l : List ℤ), l.foldl max a ≤ l.foldl max b
  | [] => hab
  | c :: l => foldl_max_le_foldl_max (max_le_max hab (le_refl c)) l

theorem mem_le_foldl_max (a : ℤ) :
    ∀ (l : List ℤ) (x : ℤ), x ∈ l → x ≤ l.foldl max a
  | [], x, hx => absurd hx (by simp)
  | b :: l, x, hx => by
      rw [List.foldl_cons]
      rcases List.mem_cons.mp hx with rfl | hx'
      · exact le_trans (le_max_right a x) (le_foldl_max (max a x) l)
      · exact mem_le_foldl_max (max a b) l x hx'

/-! ### Cumulative sums, truncation and clamping -/

theorem truncQ_zero : truncQ 0 = 0 := by simp [truncQ]

theorem truncQ_of_nonneg {q : ℚ} (h : 0 ≤ q) : truncQ q = ⌊q⌋ := by
  simp [truncQ, not_lt.mpr h]

theorem truncQ_mono {q r : ℚ} (h : q ≤ r) : truncQ q ≤ truncQ r := by
  unfold truncQ
  by_cases hq : q < 0
  · by_cases hr : r < 0
    · simp only [if_pos hq, if_pos hr, neg_le_neg_iff]
      exact Int.floor_le_floor (by linarith)
    · simp only [if_pos hq, if_neg hr]
      have h1 : (0 : ℤ) ≤ ⌊-q⌋ := Int.le_floor.mpr (by push_cast; linarith)
      have h2 : (0 : ℤ) ≤ ⌊r⌋ := Int.le_floor.mpr (by push_cast; linarith)
      omega
  · have hqr : ¬ r < 0 := by linarith [not_lt.mp hq]
    simp only [if_neg hq, if_neg hqr]
    exact Int.floor_le_floor h

theorem truncQ_nonneg {q : ℚ} (h : 0 ≤ q) : 0 ≤ truncQ q := by
  have := truncQ_mono h
  rwa [truncQ_zero] at this

theorem truncQ_intCast (n : ℤ) : truncQ (n : ℚ) = n := by
  unfold truncQ
  by_cases h : (n : ℚ) < 0
  · rw [if_pos h]
    rw [show (-(n : ℚ)) = ((-n : ℤ) : ℚ) by push_cast; ring, Int.floor_intCast]
    ring
  · rw [if_neg h, Int.floor_intCast]

theorem clampRow_nonneg (d : List ℚ) : ∀ v ∈ clampRow d, 0 ≤ v := by
  intro v hv
  rcases List.mem_map.mp hv with ⟨w, _, rfl⟩
  by_cases h : w < 0
  · simp [h]
  · simp [h]; linarith

theorem clampRow_eq_self : ∀ {d : List ℚ}, (∀ v ∈ d, 0 ≤ v) → clampRow d = d
  | [], _ => rfl
  | v :: rest, h => by
      rw [clampRow, List.map_cons, if_neg (not_lt.mpr (h v (by simp)))]
      congr 1
      exact clampRow_eq_self (fun w hw => h w (by simp [hw]))

theorem clampRow_length (d : List ℚ) : (clampRow d).length = d.length := by
  simp [clampRow]

theorem cumsumFrom_length (a : ℚ) :
    ∀ (d : List ℚ), (cumsumFrom a d).length = d.length
  | [] => rfl
  | v :: rest => by simp [cumsumFrom, cumsumFrom_length (a + v) rest]

theorem totRow_length (d : List ℚ) : (totRow d).length = d.length := by
  simp [totRow, cumTrunc, cumsum, cumsumFrom_length, clampRow_length]

theorem cumsumFrom_chain (a : ℚ) :
    ∀ (d : List ℚ), (∀ v ∈ d, 0 ≤ v) →
      List.Chain (· ≤ ·) a (cumsumFrom a d)
  | [], _ => List.Chain.nil
  | v :: rest, h => by
      rw [cumsumFrom, List.chain_cons]
      refine ⟨by linarith [h v (by simp)], ?_⟩
      exact cumsumFrom_chain (a + v) rest (fun w hw => h w (by simp [hw]))

theorem chain_map_truncQ {a : ℚ} :
    ∀ {l : List ℚ}, List.Chain (· ≤ ·) a l →
      List.Chain (· ≤ ·) (truncQ a) (l.map truncQ)
  | [], _ => List.Chain.nil
  | b :: l, h => by
      rcases (List.chain_cons.mp h) with ⟨hab, hl⟩
      rw [List.map_cons, List.chain_cons]
      exact ⟨truncQ_mono hab, chain_map_truncQ hl⟩

/-- The truncated cumulative durations of a clamped row form a
nondecreasing chain starting at `0`. -/
theorem totRow_chain (d : List ℚ) : List.Chain (· ≤ ·) 0 (totRow d) := by
  have h := chain_map_truncQ (cumsumFrom_chain 0 (clampRow d) (clampRow_nonneg d))
  rwa [truncQ_zero] at h

theorem cumsumFrom_getLast? (a : ℚ) :
    ∀ (d : List ℚ), d ≠ [] → (cumsumFrom a d).getLast? = some (a + d.sum)
  | [], h => absurd rfl h
  | v :: rest, _ => by
      rw [cumsumFrom]
      by_cases hr : rest = []
      · subst hr; simp [cumsumFrom]
      · rw [List.getLast?_cons, cumsumFrom_getLast? (a + v) rest hr]
        simp only [Option.getD_some, List.sum_cons, Option.some.injEq]
        ring

/-- The last truncated cumulative duration is the truncated sum of the
clamped row (`0` for an empty row, matching the truncated empty sum). -/
theorem totRow_getLastD (d : List ℚ) :
    (totRow d).getLastD 0 = truncQ ((clampRow d).sum) := by
  by_cases h : d = []
  · subst h; simp [totRow, cumTrunc, cumsum, cumsumFrom, clampRow, truncQ_zero]
  · have hc : clampRow d ≠ [] := by
      intro hc; apply h
      have hlen := congrArg List.length hc
      rw [clampRow_length] at hlen
      exact List.length_eq_zero.mp hlen
    unfold totRow cumTrunc cumsum
    rw [List.getLastD_eq_getLast?, List.getLast?_map,
      cumsumFrom_getLast? 0 (clampRow d) hc]
    simp

theorem chain_mem_le_getLastD {a : ℤ} :
    ∀ {l : List ℤ}, List.Chain (· ≤ ·) a l → ∀ x ∈ l, x ≤ l.getLastD a
  | [], _, x, hx => absurd hx (by simp)
  | b :: l, h, x, hx => by
      rcases (List.chain_cons.mp h) with ⟨hab, hl⟩
      rw [List.getLastD_cons]
      rcases List.mem_cons.mp hx with rfl | hx'
      · exact chain_le_getLastD hl
      · exact chain_mem_le_getLastD hl x hx'

theorem getLastD_mem : ∀ (l : List ℤ) (d : ℤ), l ≠ [] → l.getLastD d ∈ l
  | [b], d, _ => by simp [List.getLastD]
  | b :: c :: l, d, _ => by
      rw [List.getLastD_cons]
      exact List.mem_cons_of_mem b (getLastD_mem (c :: l) b (by simp))

/-! ### Characterisation of the `build_index` row loop -/

/-- What the loop of lines 34-38 leaves at frame `f`: frames inside
`[pos, last cumulative)` receive the (relative) first token whose
cumulative value exceeds `f`; all other frames keep their previous
content. -/
theorem buildRowLoop_getD :
    ∀ (tot a : List ℤ) (pos : ℤ) (j0 : ℕ) (f : ℕ),
      List.Chain (· ≤ ·) pos tot → f < a.length →
      (buildRowLoop tot a pos j0).1.getD f 0 =
        if pos ≤ (f : ℤ) ∧ (f : ℤ) < tot.getLastD pos
        then ((j0 + tot.findIdx (fun c => decide ((f : ℤ) < c)) : ℕ) : ℤ)
        else a.getD f 0
  | [], a, pos, j0, f, _, _ => by
      rw [buildRowLoop, List.getLastD_nil, if_neg (by omega)]
  | c :: rest, a, pos, j0, f, hchain, hf => by
      rw [buildRowLoop]
      rcases List.chain_cons.mp hchain with ⟨hpc, hcr⟩
      have hlen : f < (sliceAssign a pos c (j0 : ℤ)).length := by
        rwa [sliceAssign_length]
      rw [buildRowLoop_getD rest _ c (j0 + 1) f hcr hlen, sliceAssign_getD,
        List.getLastD_cons, List.findIdx_cons]
      by_cases hfc : (f : ℤ) < c
      · have hc_last : c ≤ rest.getLastD c := chain_le_getLastD hcr
        rw [decide_eq_true hfc, cond_true, if_neg (by omega)]
        by_cases hpf : pos ≤ (f : ℤ)
        · rw [if_pos ⟨hf, hpf, hfc⟩, if_pos ⟨hpf, by omega⟩]
          simp
        · rw [if_neg (by tauto), if_neg (by tauto)]
      · have hcf : c ≤ (f : ℤ) := not_lt.mp hfc
        rw [decide_eq_false hfc, cond_false]
        by_cases hfl : (f : ℤ) < rest.getLastD c
        · rw [if_pos ⟨hcf, hfl⟩, if_pos ⟨by omega, hfl⟩]
          congr 1
          omega
        · rw [if_neg (by tauto), if_neg (by omega), if_neg (by tauto)]

theorem buildRow_length (tot : List ℤ) (m : ℕ) : (buildRow tot m).length = m := by
  simp only [buildRow, sliceAssign_length, buildRowLoop_length,
    List.length_replicate]

theorem replicate_getD (m f : ℕ) : (List.replicate m (0 : ℤ)).getD f 0 = 0 := by
  induction m generalizing f with
  | zero => simp
  | succ n ih =>
      cases f with
      | zero => simp [List.replicate]
      | succ g => simp only [List.replicate, List.getD_cons_succ]; exact ih g

/-- Closed form of one row of `build_index`: output frame `f` holds
exactly `tokenOf tot f`. -/
theorem buildRow_getD (tot : List ℤ) (m : ℕ)
    (hchain : List.Chain (· ≤ ·) 0 tot) (hne : tot ≠ []) (f : ℕ) (hf : f < m) :
    (buildRow tot m).getD f 0 = (tokenOf tot f : ℤ) := by
  have hT : 0 < tot.length := List.length_pos.mpr hne
  simp only [buildRow]
  rw [sliceAssign_getD, buildRowLoop_pos, buildRowLoop_length,
    List.length_replicate,
    buildRowLoop_getD tot _ 0 0 f hchain (by rwa [List.length_replicate]),
    replicate_getD]
  by_cases hL : tot.getLastD 0 ≤ (f : ℤ)
  · rw [if_pos ⟨hf, hL, by exact_mod_cast hf⟩]
    have hfalse : ∀ x ∈ tot, (fun c => decide ((f : ℤ) < c)) x = false := by
      intro x hx
      simp only [decide_eq_false_iff_not, not_lt]
      exact le_trans (chain_mem_le_getLastD hchain x hx) hL
    unfold tokenOf
    rw [List.findIdx_eq_length_of_false hfalse]
    rw [Nat.min_eq_right (by omega)]
    omega
  · push_neg at hL
    rw [if_neg (by omega), if_pos ⟨by exact_mod_cast (Nat.zero_le f), hL⟩]
    have hex : ∃ x ∈ tot, (fun c => decide ((f : ℤ) < c)) x = true := by
      refine ⟨tot.getLastD 0, getLastD_mem tot 0 hne, ?_⟩
      simpa using hL
    have hlt : tot.findIdx (fun c => decide ((f : ℤ) < c)) < tot.length :=
      List.findIdx_lt_length_of_exists hex
    unfold tokenOf
    rw [Nat.min_eq_left (by omega)]
    simp

/-! ### Interval characterisation of the frame-to-token assignment -/

theorem findIdx_chain_eq_iff {f : ℤ} :
    ∀ (tot : List ℤ) (b : ℤ), List.Chain (· ≤ ·) b tot → b ≤ f →
      ∀ j, j < tot.length →
      (tot.findIdx (fun c => decide (f < c)) = j ↔
        (j = 0 ∨ tot.getD (j - 1) 0 ≤ f) ∧ f < tot.getD j 0)
  | [], b, _, _, j, hj => absurd hj (by simp)
  | c :: rest, b, hchain, hbf, 0, _ => by
      rcases List.chain_cons.mp hchain with ⟨hbc, hcr⟩
      rw [List.findIdx_cons]
      by_cases hfc : f < c
      · rw [decide_eq_true hfc, cond_true]
        simp [hfc]
      · rw [decide_eq_false hfc, cond_false]
        simp [hfc]
  | c :: rest, b, hchain, hbf, j + 1, hj => by
      rcases List.chain_cons.mp hchain with ⟨hbc, hcr⟩
      rw [List.findIdx_cons]
      have hjr : j < rest.length := by simpa using hj
      by_cases hfc : f < c
      · rw [decide_eq_true hfc, cond_true]
        constructor
        · intro h; omega
        · rintro ⟨h1, h2⟩
          rcases h1 with h1 | h1
          · omega
          · have hcle : c ≤ (c :: rest).getD ((j + 1) - 1) 0 := by
              cases j with
              | zero => simp
              | succ k =>
                  rw [show (k + 1 + 1 - 1) = k + 1 by omega, List.getD_cons_succ]
                  exact chain_getD_le hcr k (by omega)
            omega
      · rw [decide_eq_false hfc, cond_false]
        have hcf : c ≤ f := not_lt.mp hfc
        have ih := findIdx_chain_eq_iff rest c hcr hcf j hjr
        constructor
        · intro h
          have hr : rest.findIdx (fun c => decide (f < c)) = j := by omega
          rcases ih.mp hr with ⟨h1, h2⟩
          refine ⟨Or.inr ?_, ?_⟩
          · cases j with
            | zero => simpa using hcf
            | succ k =>
                rw [show (k + 1 + 1 - 1) = k + 1 by omega, List.getD_cons_succ]
                rcases h1 with h1 | h1
                · omega
                · simpa using h1
          · rw [List.getD_cons_succ]; exact h2
        · rintro ⟨h1, h2⟩
          rw [List.getD_cons_succ] at h2
          have hfirst : j = 0 ∨ rest.getD (j - 1) 0 ≤ f := by
            cases j with
            | zero => exact Or.inl rfl
            | succ k =>
                refine Or.inr ?_
                rcases h1 with h1 | h1
                · omega
                · rw [show (k + 1 + 1 - 1) = k + 1 by omega,
                    List.getD_cons_succ] at h1
                  simpa using h1
          have := ih.mpr ⟨hfirst, h2⟩
          omega

theorem tokenOf_of_ge_last (tot : List ℤ) (hchain : List.Chain (· ≤ ·) 0 tot)
    (hne : tot ≠ []) (f : ℕ) (hL : tot.getLastD 0 ≤ (f : ℤ)) :
    tokenOf tot f = tot.length - 1 := by
  have hT : 0 < tot.length := List.length_pos.mpr hne
  have hfalse : ∀ x ∈ tot, (fun c => decide ((f : ℤ) < c)) x = false := by
    intro x hx
    simp only [decide_eq_false_iff_not, not_lt]
    exact le_trans (chain_mem_le_getLastD hchain x hx) hL
  unfold tokenOf
  rw [List.findIdx_eq_length_of_false hfalse, Nat.min_eq_right (by omega)]

theorem tokenOf_of_lt_last (tot : List ℤ) (hchain : List.Chain (· ≤ ·) 0 tot)
    (hne : tot ≠ []) (f : ℕ) (hL : (f : ℤ) < tot.getLastD 0) :
    tokenOf tot f = tot.findIdx (fun c => decide ((f : ℤ) < c)) := by
  have hex : ∃ x ∈ tot, (fun c => decide ((f : ℤ) < c)) x = true :=
    ⟨tot.getLastD 0, getLastD_mem tot 0 hne, by simpa using hL⟩
  have hlt := List.findIdx_lt_length_of_exists hex
  unfold tokenOf
  rw [Nat.min_eq_left (by omega)]

/-- Frame `f` is assigned token `j` exactly when `f` lies in `j`'s truncated
cumulative range, or `j` is the final token and `f` lies at or beyond the
final cumulative value. -/
theorem tokenOf_eq_iff (tot : List ℤ) (hchain : List.Chain (· ≤ ·) 0 tot)
    (hne : tot ≠ []) (f j : ℕ) (hj : j < tot.length) :
    tokenOf tot f = j ↔
      ((prevTot tot j ≤ (f : ℤ) ∧ (f : ℤ) < tot.getD j 0) ∨
        (j = tot.length - 1 ∧ tot.getLastD 0 ≤ (f : ℤ))) := by
  have hT : 0 < tot.length := List.length_pos.mpr hne
  by_cases hL : tot.getLastD 0 ≤ (f : ℤ)
  · rw [tokenOf_of_ge_last tot hchain hne f hL]
    have hnofit : ¬ ((f : ℤ) < tot.getD j 0) := by
      push_neg
      exact le_trans (chain_getD_le_getLastD hchain j hj) hL
    constructor
    · intro h; exact Or.inr ⟨h.symm, hL⟩
    · rintro (⟨_, h2⟩ | ⟨h1, _⟩)
      · exact absurd h2 hnofit
      · omega
  · push_neg at hL
    rw [tokenOf_of_lt_last tot hchain hne f hL]
    rw [findIdx_chain_eq_iff tot 0 hchain (by exact_mod_cast Nat.zero_le f) j hj]
    unfold prevTot
    constructor
    · rintro ⟨h1, h2⟩
      refine Or.inl ⟨?_, h2⟩
      rcases h1 with h1 | h1
      · rw [if_pos h1]; exact_mod_cast Nat.zero_le f
      · by_cases hj0 : j = 0
        · rw [if_pos hj0]; exact_mod_cast Nat.zero_le f
        · rw [if_neg hj0]; exact h1
    · rintro (⟨h1, h2⟩ | ⟨h1, h2⟩)
      · refine ⟨?_, h2⟩
        by_cases hj0 : j = 0
        · exact Or.inl hj0
        · rw [if_neg hj0] at h1; exact Or.inr h1
      · omega

/-! ### Counting frames inside a cumulative interval -/

theorem countP_range_min (p : ℕ → Bool) (lo hi : ℕ) (hlohi : lo ≤ hi) :
    ∀ (m : ℕ), (∀ f, f < m → (p f = true ↔ lo ≤ f ∧ f < hi)) →
      (List.range m).countP p = min hi m - min lo m
  | 0, _ => by simp
  | m + 1, h => by
      rw [List.range_succ, List.countP_append,
        countP_range_min p lo hi hlohi m (fun f hf => h f (by omega))]
      by_cases hm : p m = true
      · have hcond := (h m (by omega)).mp hm
        simp only [List.countP_cons, List.countP_nil, hm, if_true]
        omega
      · have hcond : ¬ (lo ≤ m ∧ m < hi) := fun hc => hm ((h m (by omega)).mpr hc)
        have hm' : p m = false := by
          cases hp : p m
          · rfl
          · exact absurd hp hm
        simp [List.countP_cons, List.countP_nil, hm']
        omega

/-! ### Batch-level glue -/

theorem build_index_eq (ds : List (List ℚ)) :
    build_index ds =
      (ds.map totRow).map (fun row => buildRow row (frameCount ds)) := by
  simp only [build_index, buildIndexSt, build_index_core, frameCount,
    maxDuration, clampBatch, totRow, cumTrunc, List.map_map]
  rfl

theorem build_index_getD (ds : List (List ℚ)) (i : ℕ) (hi : i < ds.length) :
    (build_index ds).getD i [] =
      buildRow (totRow (ds.getD i [])) (frameCount ds) := by
  rw [build_index_eq]
  simp [List.getD_eq_getElem?_getD, List.getElem?_map,
    List.getElem?_eq_getElem hi]

theorem build_index_row_length (ds : List (List ℚ)) (i : ℕ)
    (hi : i < ds.length) :
    ((build_index ds).getD i []).length = frameCount ds := by
  rw [build_index_getD ds i hi, buildRow_length]

theorem maxDuration_nonneg (ds : List (List ℚ)) : 0 ≤ maxDuration ds :=
  le_foldl_max 0 _

theorem totRow_getLastD_le_maxDuration (ds : List (List ℚ)) (i : ℕ)
    (hi : i < ds.length) :
    (totRow (ds.getD i [])).getLastD 0 ≤ maxDuration ds := by
  have hmap : ((clampBatch ds).map cumTrunc) = ds.map totRow := by
    simp [clampBatch, totRow, cumTrunc, List.map_map]
  unfold maxDuration
  rw [hmap]
  have hrow : (totRow (ds.getD i [])).getLastD 0 =
      (totRow (ds.getD i [])).foldl max 0 :=
    (foldl_max_eq_getLastD (totRow_chain _)).symm
  rw [hrow]
  apply mem_le_foldl_max
  have hmem : totRow (ds.getD i []) ∈ ds.map totRow := by
    rw [List.getD_eq_getElem?_getD, List.getElem?_eq_getElem hi]
    exact List.mem_map_of_mem totRow (List.getElem_mem hi)
  exact List.mem_map_of_mem _ hmem

theorem chain_getD_succ_le {a : ℤ} :
    ∀ {l : List ℤ}, List.Chain (· ≤ ·) a l →
      ∀ k, k + 1 < l.length → l.getD k 0 ≤ l.getD (k + 1) 0
  | [], _, k, hk => absurd hk (by simp)
  | b :: l, h, 0, hk => by
      rcases List.chain_cons.mp h with ⟨_, hl⟩
      rw [List.getD_cons_zero, List.getD_cons_succ]
      exact chain_getD_le hl 0 (by simpa using hk)
  | b :: l, h, k + 1, hk => by
      rcases List.chain_cons.mp h with ⟨_, hl⟩
      rw [List.getD_cons_succ, List.getD_cons_succ]
      exact chain_getD_succ_le hl k (by simpa using hk)

theorem getD_map_truncQ (l : List ℚ) (j : ℕ) :
    (l.map truncQ).getD j 0 = truncQ (l.getD j 0) := by
  by_cases h : j < l.length
  · simp [List.getD_eq_getElem?_getD, List.getElem?_map,
      List.getElem?_eq_getElem h]
  · rw [List.getD_eq_getElem?_getD, List.getD_eq_getElem?_getD,
      List.getElem?_map, List.getElem?_eq_none (by omega)]
    simp [truncQ_zero]

theorem getLastD_indep {α : Type} (l : List α) (a b : α) (h : l ≠ []) :
    l.getLastD a = l.getLastD b := by
  rw [List.getLastD_eq_getLast?, List.getLastD_eq_getLast?,
    List.getLast?_eq_getLast l h]
  simp

theorem getD_length_sub_one {α : Type} :
    ∀ (l : List α) (d : α), l ≠ [] → l.getD (l.length - 1) d = l.getLastD d
  | [x], d, _ => rfl
  | x :: y :: l, d, _ => by
      rw [List.getLastD_cons]
      have ih := getD_length_sub_one (y :: l) d (by simp)
      have hlen : (x :: y :: l).length - 1 = ((y :: l).length - 1) + 1 := by
        simp
      rw [hlen, List.getD_cons_succ, ih]
      exact getLastD_indep (y :: l) d x (by simp)

theorem maxDuration_singleton (d : List ℚ) :
    maxDuration [d] = (totRow d).getLastD 0 := by
  unfold maxDuration
  simp only [clampBatch, List.map_cons, List.map_nil, List.foldl_cons,
    List.foldl_nil]
  rw [show cumTrunc (clampRow d) = totRow d from rfl,
    foldl_max_eq_getLastD (totRow_chain d)]
  exact max_eq_right (chain_le_getLastD (totRow_chain d))

theorem frameCount_singleton (d : List ℚ) :
    frameCount [d] = ((totRow d).getLastD 0).toNat := by
  rw [frameCount, maxDuration_singleton]

theorem maxDuration_eq_foldl (ds : List (List ℚ)) :
    maxDuration ds =
      (ds.map (fun d => truncQ ((clampRow d).sum))).foldl max 0 := by
  unfold maxDuration
  have hmap : ((clampBatch ds).map cumTrunc) = ds.map totRow := by
    simp [clampBatch, totRow, cumTrunc, List.map_map]
  rw [hmap, List.map_map]
  congr 1
  apply List.map_congr_left
  intro d _
  simp only [Function.comp]
  rw [foldl_max_eq_getLastD (totRow_chain d), totRow_getLastD]

theorem build_index_length (ds : List (List ℚ)) :
    (build_index ds).length = ds.length := by
  rw [build_index_eq]; simp

theorem buildRow_eq_map_range (tot : List ℤ) (m : ℕ)
    (hchain : List.Chain (· ≤ ·) 0 tot) (hne : tot ≠ []) :
    buildRow tot m = (List.range m).map (fun f => (tokenOf tot f : ℤ)) := by
  apply List.ext_getElem
  · rw [buildRow_length]; simp
  · intro n h1 h2
    have hn : n < m := by rwa [buildRow_length] at h1
    have hgd := buildRow_getD tot m hchain hne n hn
    rw [List.getD_eq_getElem?_getD, List.getElem?_eq_getElem h1] at hgd
    simp only [Option.getD_some] at hgd
    rw [hgd]
    simp

/-- The number of output frames that one row of `build_index` assigns to
token `j` is the difference of consecutive truncated cumulative durations
(single-sequence batch). -/
theorem count_frames_token (d : List ℚ) (j : ℕ) (hne : d ≠ [])
    (hj : j < d.length) :
    ((build_index [d]).getD 0 []).count ((j : ℕ) : ℤ) =
      ((totRow d).getD j 0 - prevTot (totRow d) j).toNat := by
  have htne : totRow d ≠ [] := by
    intro hc
    have hlen := congrArg List.length hc
    rw [totRow_length] at hlen
    exact hne (List.length_eq_zero.mp hlen)
  have hchain := totRow_chain d
  have hjt : j < (totRow d).length := by rwa [totRow_length]
  rw [build_index_getD [d] 0 (by simp), List.getD_cons_zero,
    buildRow_eq_map_range (totRow d) (frameCount [d]) hchain htne,
    List.count_eq_countP, List.countP_map]
  have hLnn : 0 ≤ (totRow d).getLastD 0 := chain_le_getLastD hchain
  have hprev_nn : 0 ≤ prevTot (totRow d) j := by
    unfold prevTot
    by_cases h0 : j = 0
    · simp [h0]
    · rw [if_neg h0]
      exact chain_getD_le hchain (j - 1) (by omega)
  have hjle : (totRow d).getD j 0 ≤ (totRow d).getLastD 0 :=
    chain_getD_le_getLastD hchain j hjt
  have hprevle : prevTot (totRow d) j ≤ (totRow d).getD j 0 := by
    unfold prevTot
    by_cases h0 : j = 0
    · rw [if_pos h0]
      exact chain_getD_le hchain j hjt
    · rw [if_neg h0]
      have hstep := chain_getD_succ_le hchain (j - 1) (by omega)
      rwa [show (j - 1) + 1 = j by omega] at hstep
  have hm : frameCount [d] = ((totRow d).getLastD 0).toNat :=
    frameCount_singleton d
  have hiff : ∀ f, f < frameCount [d] →
      ((((· == ((j : ℕ) : ℤ)) ∘ fun f => ((tokenOf (totRow d) f : ℕ) : ℤ)) f)
          = true ↔
        (prevTot (totRow d) j).toNat ≤ f ∧ f < ((totRow d).getD j 0).toNat) := by
    intro f hf
    rw [hm] at hf
    have hfL : (f : ℤ) < (totRow d).getLastD 0 := by omega
    simp only [Function.comp, beq_iff_eq, Int.natCast_inj]
    rw [tokenOf_eq_iff (totRow d) hchain htne f j hjt]
    constructor
    · rintro (⟨h1, h2⟩ | ⟨h1, h2⟩)
      · exact ⟨by omega, by omega⟩
      · omega
    · rintro ⟨h1, h2⟩
      exact Or.inl ⟨by omega, by omega⟩
  have hkey := countP_range_min
    ((· == ((j : ℕ) : ℤ)) ∘ fun f => ((tokenOf (totRow d) f : ℕ) : ℤ))
    ((prevTot (totRow d) j).toNat) (((totRow d).getD j 0).toNat)
    (by omega) (frameCount [d]) hiff
  rw [hkey, hm]
  omega

theorem dot_replicate_zero : ∀ (w : List ℚ) (n : ℕ), dot w (List.replicate n 0) = 0
  | [], _ => by simp [dot]
  | x :: w, 0 => by simp [dot]
  | x :: w, n + 1 => by
      rw [List.replicate_succ]
      simp only [dot, List.zip_cons_cons, List.map_cons, List.sum_cons]
      have ih := dot_replicate_zero w n
      simp only [dot] at ih
      rw [ih]
      ring

theorem clamp_div_le (v alpha alpha' : ℚ) (ha : 0 < alpha) (h : alpha ≤ alpha') :
    (if v / alpha' < 0 then 0 else v / alpha') ≤
      (if v / alpha < 0 then 0 else v / alpha) := by
  have ha' : 0 < alpha' := lt_of_lt_of_le ha h
  by_cases hv : 0 ≤ v
  · rw [if_neg (not_lt.mpr (div_nonneg hv (le_of_lt ha'))),
      if_neg (not_lt.mpr (div_nonneg hv (le_of_lt ha)))]
    exact div_le_div_of_nonneg_left hv ha h
  · push_neg at hv
    rw [if_pos (div_neg_of_neg_of_pos hv ha'),
      if_pos (div_neg_of_neg_of_pos hv ha)]

theorem clampRow_div_sum_mono (alpha alpha' : ℚ) (ha : 0 < alpha)
    (h : alpha ≤ alpha') :
    ∀ (d : List ℚ),
      (clampRow (d.map (fun v => v / alpha'))).sum ≤
        (clampRow (d.map (fun v => v / alpha))).sum
  | [] => le_refl 0
  | v :: rest => by
      simp only [List.map_cons, clampRow, List.sum_cons]
      exact add_le_add (clamp_div_le v alpha alpha' ha h)
        (clampRow_div_sum_mono alpha alpha' ha h rest)

theorem frameCount_div_mono (d : List ℚ) (alpha alpha' : ℚ)
    (ha : 0 < alpha) (h : alpha ≤ alpha') :
    frameCount [d.map (fun v => v / alpha')] ≤
      frameCount [d.map (fun v => v / alpha)] := by
  rw [frameCount_singleton, frameCount_singleton, totRow_getLastD,
    totRow_getLastD]
  exact Int.toNat_le_toNat
    (truncQ_mono (clampRow_div_sum_mono alpha alpha' ha h d))

theorem cumsumFrom_replicate_getD (c : ℚ) :
    ∀ (T : ℕ) (a : ℚ) (j : ℕ), j < T →
      (cumsumFrom a (List.replicate T c)).getD j 0 = a + ((j : ℚ) + 1) * c
  | 0, a, j, hj => absurd hj (by omega)
  | T + 1, a, 0, _ => by
      rw [List.replicate_succ, cumsumFrom, List.getD_cons_zero]
      ring
  | T + 1, a, j + 1, hj => by
      rw [List.replicate_succ, cumsumFrom, List.getD_cons_succ,
        cumsumFrom_replicate_getD c T (a + c) j (by omega)]
      push_cast
      ring

theorem expand_getD {α : Type} (x : List (List α)) (dflt : α)
    (ds : List (List ℚ)) (i f : ℕ)
    (hix : i < x.length) (hid : i < ds.length) (hf : f < frameCount ds) :
    ((expand x dflt ds).getD i []).getD f dflt =
      (x.getD i []).getD (((build_index ds).getD i []).getD f 0).toNat dflt := by
  have hib : i < (build_index ds).length := by rwa [build_index_length]
  have hzip : (x.zip (build_index ds))[i]? =
      some (x.getD i [], (build_index ds).getD i []) := by
    apply List.getElem?_zip_eq_some.mpr
    constructor
    · simp [List.getD_eq_getElem?_getD, List.getElem?_eq_getElem hix]
    · simp [List.getD_eq_getElem?_getD, List.getElem?_eq_getElem hib]
  have hrow : (expand x dflt ds).getD i [] =
      ((build_index ds).getD i []).map
        (fun j => (x.getD i []).getD j.toNat dflt) := by
    show ((x.zip (build_index ds)).map
        (fun p => p.2.map (fun j => p.1.getD j.toNat dflt))).getD i [] = _
    rw [List.getD_eq_getElem?_getD, List.getElem?_map, hzip]
    rfl
  rw [hrow]
  have hfrow' : f < ((build_index ds).getD i []).length := by
    rw [build_index_row_length ds i hid]; exact hf
  have hfrow : f < (((build_index ds).getD i []).map
      (fun j => (x.getD i []).getD j.toNat dflt)).length := by
    rw [List.length_map]; exact hfrow'
  rw [List.getD_eq_getElem?_getD, List.getElem?_eq_getElem hfrow,
    List.getElem_map,
    List.getD_eq_getElem?_getD ((build_index ds).getD i []) f 0,
    List.getElem?_eq_getElem hfrow']
  rfl

theorem totRow_ne_nil {d : List ℚ} (hne : d ≠ []) : totRow d ≠ [] := by
  intro hc
  have hlen := congrArg List.length hc
  rw [totRow_length] at hlen
  exact hne (List.length_eq_zero.mp hlen)

theorem getD_mem_of_lt {α : Type} (l : List α) (i : ℕ) (d : α)
    (hi : i < l.length) : l.getD i d ∈ l := by
  rw [List.getD_eq_getElem?_getD, List.getElem?_eq_getElem hi]
  exact List.getElem_mem hi

/-! ### Claims -/

/-- C1: the hard-expansion regulator (`LengthRegulator.expand` via
`build_index`) first clamps negative duration entries to 0 (in place), and
for a batch of nonempty all-nonnegative rows with positive sums it produces
exactly the truncation of the final cumulative value, maximised over the
batch, as the common output frame count, with every output frame mapped to
exactly one token index in `[0, number of tokens)`. -/
theorem claim_C1_duration_sum (ds : List (List ℚ))
    (hne : ∀ d ∈ ds, d ≠ [])
    (hnn : ∀ d ∈ ds, ∀ v ∈ d, 0 ≤ v)
    (hpos : ∀ d ∈ ds, 0 < d.sum) :
    (buildIndexSt ds).1 = clampBatch ds ∧
    frameCount ds = ((ds.map (fun d => ⌊d.sum⌋)).foldl max 0).toNat ∧
    (∀ i, i < ds.length → ((build_index ds).getD i []).length = frameCount ds) ∧
    (∀ i f, i < ds.length → f < frameCount ds →
      ∃ j : ℕ, j < (ds.getD i []).length ∧
        ((build_index ds).getD i []).getD f 0 = ((j : ℕ) : ℤ)) := by
  refine ⟨rfl, ?_, ?_, ?_⟩
  · rw [frameCount, maxDuration_eq_foldl]
    congr 2
    apply List.map_congr_left
    intro d hd
    rw [clampRow_eq_self (hnn d hd),
      truncQ_of_nonneg (List.sum_nonneg (hnn d hd))]
  · intro i hi
    exact build_index_row_length ds i hi
  · intro i f hi hf
    have hmem : ds.getD i [] ∈ ds := getD_mem_of_lt ds i [] hi
    have hdne : ds.getD i [] ≠ [] := hne _ hmem
    have htne : totRow (ds.getD i []) ≠ [] := totRow_ne_nil hdne
    have hT : 0 < (ds.getD i []).length := List.length_pos.mpr hdne
    refine ⟨tokenOf (totRow (ds.getD i [])) f, ?_, ?_⟩
    · unfold tokenOf
      rw [totRow_length]
      exact Nat.lt_of_le_of_lt (Nat.min_le_right _ _) (by omega)
    · rw [build_index_getD ds i hi]
      exact buildRow_getD _ _ (totRow_chain _) htne f hf

theorem claim_C1_duration_sum_witness :
    ((∀ d ∈ [[(1 : ℚ), 1 / 2]], d ≠ []) ∧
      (∀ d ∈ [[(1 : ℚ), 1 / 2]], ∀ v ∈ d, 0 ≤ v) ∧
      (∀ d ∈ [[(1 : ℚ), 1 / 2]], 0 < d.sum)) ∧
    ((buildIndexSt [[(1 : ℚ), 1 / 2]]).1 = clampBatch [[(1 : ℚ), 1 / 2]] ∧
      frameCount [[(1 : ℚ), 1 / 2]] =
        (([[(1 : ℚ), 1 / 2]].map (fun d => ⌊d.sum⌋)).foldl max 0).toNat ∧
      (∀ i, i < [[(1 : ℚ), 1 / 2]].length →
        ((build_index [[(1 : ℚ), 1 / 2]]).getD i []).length =
          frameCount [[(1 : ℚ), 1 / 2]]) ∧
      (∀ i f, i < [[(1 : ℚ), 1 / 2]].length →
        f < frameCount [[(1 : ℚ), 1 / 2]] →
        ∃ j : ℕ, j < ([[(1 : ℚ), 1 / 2]].getD i []).length ∧
          ((build_index [[(1 : ℚ), 1 / 2]]).getD i []).getD f 0 =
            ((j : ℕ) : ℤ))) :=
  ⟨⟨by simp, by norm_num, by norm_num⟩,
    claim_C1_duration_sum [[(1 : ℚ), 1 / 2]] (by simp) (by norm_num)
      (by norm_num)⟩

/-- C2: one row of `build_index` assigns output frame `f` the token `j`
exactly when `f` lies between the truncated inclusive cumulative sums
`cum[j-1]` and `cum[j]` (frames at or beyond the last cumulative value go
to the final token); on the spec's example, durations `[2.4, 0.0, 3.6]`
give cumulative sums `[2.4, 2.4, 6.0]`, truncated `[2, 2, 6]`, mapping
`[0, 0, 2, 2, 2, 2]` of output length 6. -/
theorem claim_C2_frame_mapping :
    (∀ (d : List ℚ) (f j : ℕ), d ≠ [] → (∀ v ∈ d, 0 ≤ v) →
      f < frameCount [d] → j < d.length →
      (((build_index [d]).getD 0 []).getD f 0 = ((j : ℕ) : ℤ) ↔
        ((prevTot (totRow d) j ≤ (f : ℤ) ∧
            (f : ℤ) < (totRow d).getD j 0) ∨
          (j = d.length - 1 ∧ (totRow d).getLastD 0 ≤ (f : ℤ))))) ∧
    cumsum (clampRow [12 / 5, 0, 18 / 5]) = [12 / 5, 12 / 5, 6] ∧
    totRow [12 / 5, 0, 18 / 5] = [2, 2, 6] ∧
    build_index [[12 / 5, 0, 18 / 5]] = [[0, 0, 2, 2, 2, 2]] ∧
    frameCount [[12 / 5, 0, 18 / 5]] = 6 := by
  have h1 : totRow [12 / 5, 0, 18 / 5] = [2, 2, 6] := by
    norm_num [totRow, cumTrunc, cumsum, cumsumFrom, clampRow, truncQ]
  have h2 : frameCount [[12 / 5, 0, 18 / 5]] = 6 := by
    rw [frameCount_singleton, h1]; decide
  refine ⟨?_, by norm_num [cumsum, cumsumFrom, clampRow], h1, ?_, h2⟩
  · intro d f j hd hnn hf hj
    have htne : totRow d ≠ [] := totRow_ne_nil hd
    rw [build_index_getD [d] 0 (by simp), List.getD_cons_zero,
      buildRow_getD (totRow d) (frameCount [d]) (totRow_chain d) htne f hf,
      Nat.cast_inj,
      tokenOf_eq_iff (totRow d) (totRow_chain d) htne f j
        (by rwa [totRow_length]),
      totRow_length]
  · rw [build_index_eq]
    simp only [List.map_cons, List.map_nil]
    rw [h1, h2]
    decide

theorem claim_C2_frame_mapping_witness :
    (([(1 : ℚ), 1] ≠ []) ∧ (∀ v ∈ [(1 : ℚ), 1], 0 ≤ v) ∧
      0 < frameCount [[(1 : ℚ), 1]] ∧ 0 < [(1 : ℚ), 1].length) ∧
    (((build_index [[(1 : ℚ), 1]]).getD 0 []).getD 0 0 = ((0 : ℕ) : ℤ) ↔
      ((prevTot (totRow [(1 : ℚ), 1]) 0 ≤ ((0 : ℕ) : ℤ) ∧
          ((0 : ℕ) : ℤ) < (totRow [(1 : ℚ), 1]).getD 0 0) ∨
        (0 = [(1 : ℚ), 1].length - 1 ∧
          (totRow [(1 : ℚ), 1]).getLastD 0 ≤ ((0 : ℕ) : ℤ)))) :=
  ⟨⟨by simp, by norm_num,
      by
        rw [frameCount_singleton]
        norm_num [totRow, cumTrunc, cumsum, cumsumFrom, clampRow, truncQ],
      by simp⟩,
    claim_C2_frame_mapping.1 [(1 : ℚ), 1] 0 0 (by simp) (by norm_num)
      (by
        rw [frameCount_singleton]
        norm_num [totRow, cumTrunc, cumsum, cumsumFrom, clampRow, truncQ])
      (by simp)⟩

/-- C3 counterexample: the source adds no 0.5 offset at inference.  On the
duration vector `[0.6]` the regulator's truncated cumulative durations (the
same computation on the training path of `forward` and the inference path
of `generate`) are `[0]`, producing zero output frames, whereas the
add-0.5-then-truncate behaviour the claim attributes to inference would
give `[1]` and one frame. -/
theorem claim_C3_counterexample :
    totRow [(3 : ℚ) / 5] = [0] ∧
    totRowSpecInfer [(3 : ℚ) / 5] = [1] ∧
    build_index [[(3 : ℚ) / 5]] = [[]] ∧
    totRow [(3 : ℚ) / 5] ≠ totRowSpecInfer [(3 : ℚ) / 5] := by
  have h1 : totRow [(3 : ℚ) / 5] = [0] := by
    norm_num [totRow, cumTrunc, cumsum, cumsumFrom, clampRow, truncQ]
  have h2 : totRowSpecInfer [(3 : ℚ) / 5] = [1] := by
    norm_num [totRowSpecInfer, cumsum, cumsumFrom, clampRow, truncQ]
  have h3 : frameCount [[(3 : ℚ) / 5]] = 0 := by
    rw [frameCount_singleton, h1]; decide
  refine ⟨h1, h2, ?_, by rw [h1, h2]; decide⟩
  rw [build_index_eq]
  simp only [List.map_cons, List.map_nil]
  rw [h1, h3]
  decide

/-- C3 amended: neither mode adds a rounding offset — training (`forward`,
line 230) and inference (`generate`, line 294) invoke the identical
`LengthRegulator` expansion, so identical duration vectors always produce
identical frame boundaries in the two modes. -/
theorem claim_C3_no_mode_asymmetry (α : Type) (x : List (List α)) (dflt : α)
    (dur : List (List ℚ)) :
    generateRegulate x dflt dur = forwardRegulate x dflt dur := rfl

/-- C4: a sequence whose truncated total duration is below the batch
maximum has every frame at or beyond its own last cumulative value filled
with its own final token index, and under `expand` those frames carry the
features of that sequence's last token (last-token repeat), up to the
batch maximum output length. -/
theorem claim_C4_padding_fill (ds : List (List ℚ)) (i f : ℕ)
    (hi : i < ds.length) (hne : ds.getD i [] ≠ [])
    (hnn : ∀ d ∈ ds, ∀ v ∈ d, 0 ≤ v)
    (hf1 : (totRow (ds.getD i [])).getLastD 0 ≤ (f : ℤ))
    (hf2 : f < frameCount ds) :
    ((build_index ds).getD i []).getD f 0 =
      ((ds.getD i []).length : ℤ) - 1 ∧
    (∀ (x : List (List ℚ)) (dflt : ℚ), x.length = ds.length →
      (x.getD i []).length = (ds.getD i []).length →
      ((expand x dflt ds).getD i []).getD f dflt =
        (x.getD i []).getLastD dflt) := by
  have htne := totRow_ne_nil hne
  have hT : 0 < (ds.getD i []).length := List.length_pos.mpr hne
  have hidx : ((build_index ds).getD i []).getD f 0 =
      ((ds.getD i []).length : ℤ) - 1 := by
    rw [build_index_getD ds i hi,
      buildRow_getD _ _ (totRow_chain _) htne f hf2,
      tokenOf_of_ge_last _ (totRow_chain _) htne f hf1, totRow_length]
    omega
  refine ⟨hidx, ?_⟩
  intro x dflt hxlen hxrow
  rw [expand_getD x dflt ds i f (by omega) hi hf2, hidx,
    show ((((ds.getD i []).length : ℤ) - 1).toNat) =
      (x.getD i []).length - 1 by omega]
  refine getD_length_sub_one _ dflt ?_
  intro hc
  have hcl := congrArg List.length hc
  simp only [List.length_nil] at hcl
  omega

theorem claim_C4_padding_fill_witness :
    ((1 < [[(2 : ℚ), 3], [1, 1]].length) ∧
      ([[(2 : ℚ), 3], [1, 1]].getD 1 [] ≠ []) ∧
      (∀ d ∈ [[(2 : ℚ), 3], [1, 1]], ∀ v ∈ d, 0 ≤ v) ∧
      ((totRow ([[(2 : ℚ), 3], [1, 1]].getD 1 [])).getLastD 0 ≤ ((3 : ℕ) : ℤ)) ∧
      (3 < frameCount [[(2 : ℚ), 3], [1, 1]])) ∧
    (((build_index [[(2 : ℚ), 3], [1, 1]]).getD 1 []).getD 3 0 =
        (([[(2 : ℚ), 3], [1, 1]].getD 1 []).length : ℤ) - 1 ∧
      (∀ (x : List (List ℚ)) (dflt : ℚ),
        x.length = [[(2 : ℚ), 3], [1, 1]].length →
        (x.getD 1 []).length = ([[(2 : ℚ), 3], [1, 1]].getD 1 []).length →
        ((expand x dflt [[(2 : ℚ), 3], [1, 1]]).getD 1 []).getD 3 dflt =
          (x.getD 1 []).getLastD dflt)) := by
  have ht : totRow ([[(2 : ℚ), 3], [1, 1]].getD 1 []) = [1, 2] := by
    norm_num [totRow, cumTrunc, cumsum, cumsumFrom, clampRow, truncQ]
  have hfc : frameCount [[(2 : ℚ), 3], [1, 1]] = 5 := by
    rw [frameCount, maxDuration_eq_foldl]
    norm_num [clampRow, truncQ]
    decide
  refine ⟨⟨by norm_num, by simp, by norm_num, by rw [ht]; decide,
      by rw [hfc]; norm_num⟩, ?_⟩
  exact claim_C4_padding_fill [[(2 : ℚ), 3], [1, 1]] 1 3 (by norm_num)
    (by simp) (by norm_num) (by rw [ht]; decide) (by rw [hfc]; norm_num)

/-- C5 counterexample: per-token frame counts are NOT `round(d_j)`.  For
the single duration `1.5`, truncation of the cumulative sum gives token 0
exactly 1 frame while `round 1.5 = 2`; and for durations `[0.6, 0.6]`
token 0 has positive duration yet receives zero frames. -/
theorem claim_C5_counterexample :
    ((((build_index [[(3 : ℚ) / 2]]).getD 0 []).count ((0 : ℕ) : ℤ) : ℤ) ≠
        round ((3 : ℚ) / 2)) ∧
    ((0 : ℚ) < 3 / 5 ∧
      ((build_index [[(3 : ℚ) / 5, 3 / 5]]).getD 0 []).count ((0 : ℕ) : ℤ) = 0) := by
  have h1 : totRow [(3 : ℚ) / 2] = [1] := by
    norm_num [totRow, cumTrunc, cumsum, cumsumFrom, clampRow, truncQ]
  have h2 : frameCount [[(3 : ℚ) / 2]] = 1 := by
    rw [frameCount_singleton, h1]; decide
  have h3 : build_index [[(3 : ℚ) / 2]] = [[0]] := by
    rw [build_index_eq]
    simp only [List.map_cons, List.map_nil]
    rw [h1, h2]
    decide
  have h4 : totRow [(3 : ℚ) / 5, 3 / 5] = [0, 1] := by
    norm_num [totRow, cumTrunc, cumsum, cumsumFrom, clampRow, truncQ]
  have h5 : frameCount [[(3 : ℚ) / 5, 3 / 5]] = 1 := by
    rw [frameCount_singleton, h4]; decide
  have h6 : build_index [[(3 : ℚ) / 5, 3 / 5]] = [[1]] := by
    rw [build_index_eq]
    simp only [List.map_cons, List.map_nil]
    rw [h4, h5]
    decide
  have hr : round ((3 : ℚ) / 2) = 2 := by norm_num [round_eq]
  refine ⟨?_, by norm_num, ?_⟩
  · rw [h3, hr]; decide
  · rw [h6]; decide

/-- C5 amended: for a single nonempty nonnegative duration vector, the
number of output frames mapped to token `j` equals the difference of
consecutive truncated cumulative sums `⌊cum_j⌋ - ⌊cum_(j-1)⌋` (not
`round(d_j)`); no frame is left unassigned — every output frame carries
some token index in range — but a token with positive duration may
receive zero frames. -/
theorem claim_C5_frames_per_token (d : List ℚ) (j : ℕ)
    (hne : d ≠ []) (hnn : ∀ v ∈ d, 0 ≤ v) (hj : j < d.length) :
    ((build_index [d]).getD 0 []).count ((j : ℕ) : ℤ) =
      ((totRow d).getD j 0 - prevTot (totRow d) j).toNat ∧
    (∀ f, f < frameCount [d] → ∃ k : ℕ, k < d.length ∧
      ((build_index [d]).getD 0 []).getD f 0 = ((k : ℕ) : ℤ)) := by
  have htne : totRow d ≠ [] := totRow_ne_nil hne
  have hT : 0 < d.length := List.length_pos.mpr hne
  refine ⟨count_frames_token d j hne hj, ?_⟩
  intro f hf
  refine ⟨tokenOf (totRow d) f, ?_, ?_⟩
  · unfold tokenOf
    rw [totRow_length]
    exact Nat.lt_of_le_of_lt (Nat.min_le_right _ _) (by omega)
  · rw [build_index_getD [d] 0 (by simp), List.getD_cons_zero]
    exact buildRow_getD _ _ (totRow_chain d) htne f hf

theorem claim_C5_frames_per_token_witness :
    (([(1 : ℚ), 1] ≠ []) ∧ (∀ v ∈ [(1 : ℚ), 1], 0 ≤ v) ∧
      (1 < [(1 : ℚ), 1].length)) ∧
    (((build_index [[(1 : ℚ), 1]]).getD 0 []).count ((1 : ℕ) : ℤ) =
        ((totRow [(1 : ℚ), 1]).getD 1 0 -
          prevTot (totRow [(1 : ℚ), 1]) 1).toNat ∧
      (∀ f, f < frameCount [[(1 : ℚ), 1]] → ∃ k : ℕ, k < [(1 : ℚ), 1].length ∧
        ((build_index [[(1 : ℚ), 1]]).getD 0 []).getD f 0 = ((k : ℕ) : ℤ))) :=
  ⟨⟨by simp, by norm_num, by norm_num⟩,
    claim_C5_frames_per_token [(1 : ℚ), 1] 1 (by simp) (by norm_num)
      (by norm_num)⟩

/-- C6 counterexample: with recurrent layer the identity, linear weight
`[1]`, bias `1`, `alpha = 1`, features `[[5], [7]]` and valid length 1,
the position beyond the valid length returns `1` (the bias), not the
padding value `0.0`. -/
theorem claim_C6_counterexample :
    (seriesPredictorForward (fun l => l) [1] 1 1 1 [[5], [7]] 1).getD 1 0 = 1 ∧
    (seriesPredictorForward (fun l => l) [1] 1 1 1 [[5], [7]] 1).getD 1 0 ≠ 0 := by
  have h : seriesPredictorForward (fun l => l) [1] 1 1 1 [[5], [7]] 1 = [6, 1] := by
    norm_num [seriesPredictorForward, dot]
  rw [h]
  norm_num

/-- C6 amended: with explicit lengths the recurrent layer sees only the
valid first `xlen` positions (the returned values at valid positions
depend only on that valid part, so nothing leaks across the padding
boundary), and the recurrent output is padded with `0.0` beyond the valid
length; but `SeriesPredictor.forward` applies the linear projection and
the `alpha` division after that padding, so the values it returns at
padded positions equal `bias / alpha`, not the padding value `0.0`. -/
theorem claim_C6_padding_outputs
    (rnn : List (List ℚ) → List (List ℚ)) (w : List ℚ) (b alpha : ℚ)
    (dim : ℕ) (feats : List (List ℚ)) (xlen : ℕ)
    (hxl : xlen ≤ feats.length)
    (hrnn : (rnn (feats.take xlen)).length = xlen) :
    (∀ t, xlen ≤ t → t < feats.length →
      (seriesPredictorForward rnn w b alpha dim feats xlen).getD t 0 =
        b / alpha) ∧
    (∀ feats', feats'.length = feats.length →
      feats'.take xlen = feats.take xlen →
      seriesPredictorForward rnn w b alpha dim feats' xlen =
        seriesPredictorForward rnn w b alpha dim feats xlen) := by
  constructor
  · intro t ht htlen
    unfold seriesPredictorForward
    have hpadlen : t < ((rnn (feats.take xlen)) ++
        List.replicate (feats.length - xlen) (List.replicate dim 0)).length := by
      rw [List.length_append, List.length_replicate, hrnn]
      omega
    have hmaplen : t < (((rnn (feats.take xlen)) ++
        List.replicate (feats.length - xlen) (List.replicate dim 0)).map
          (fun v => (dot w v + b) / alpha)).length := by
      rwa [List.length_map]
    rw [List.getD_eq_getElem?_getD, List.getElem?_eq_getElem hmaplen]
    simp only [Option.getD_some, List.getElem_map]
    rw [List.getElem_append_right (by omega)]
    rw [List.getElem_replicate]
    rw [dot_replicate_zero]
    ring_nf
  · intro feats' hlen htake
    unfold seriesPredictorForward
    rw [hlen, htake]

theorem claim_C6_padding_outputs_witness :
    ((1 ≤ ([[(5 : ℚ)], [7]] : List (List ℚ)).length) ∧
      (((fun l => l) (([[(5 : ℚ)], [7]] : List (List ℚ)).take 1)).length = 1)) ∧
    ((∀ t, 1 ≤ t → t < ([[(5 : ℚ)], [7]] : List (List ℚ)).length →
      (seriesPredictorForward (fun l => l) [1] 1 1 1 [[(5 : ℚ)], [7]] 1).getD t 0 =
        1 / 1) ∧
      (∀ feats', feats'.length = ([[(5 : ℚ)], [7]] : List (List ℚ)).length →
        feats'.take 1 = ([[(5 : ℚ)], [7]] : List (List ℚ)).take 1 →
        seriesPredictorForward (fun l => l) [1] 1 1 1 feats' 1 =
          seriesPredictorForward (fun l => l) [1] 1 1 1 [[(5 : ℚ)], [7]] 1)) :=
  ⟨⟨by norm_num, by norm_num⟩,
    claim_C6_padding_outputs (fun l => l) [1] 1 1 1 [[(5 : ℚ)], [7]] 1
      (by norm_num) (by norm_num)⟩

/-- C7: `SeriesPredictor.forward` divides the per-position scalar
projection elementwise by the caller-supplied `alpha` (so `alpha = 1` is
the identity on the prediction), and for a fixed raw duration vector the
hard-regulated output frame count is non-increasing in `alpha` (it
decreases or stays equal, at the floor). -/
theorem claim_C7_alpha_scaling :
    (∀ (rnn : List (List ℚ) → List (List ℚ)) (w : List ℚ) (b alpha : ℚ)
      (dim : ℕ) (feats : List (List ℚ)) (xlen : ℕ),
      seriesPredictorForward rnn w b alpha dim feats xlen =
        (seriesPredictorForward rnn w b 1 dim feats xlen).map
          (fun y => y / alpha)) ∧
    (∀ (d : List ℚ) (alpha alpha' : ℚ), 0 < alpha → alpha ≤ alpha' →
      frameCount [d.map (fun v => v / alpha')] ≤
        frameCount [d.map (fun v => v / alpha)]) := by
  constructor
  · intro rnn w b alpha dim feats xlen
    unfold seriesPredictorForward
    rw [List.map_map]
    apply List.map_congr_left
    intro v _
    simp only [Function.comp]
    rw [div_one]
  · intro d alpha alpha' ha h
    exact frameCount_div_mono d alpha alpha' ha h

theorem claim_C7_alpha_scaling_witness :
    ((0 : ℚ) < 1 ∧ (1 : ℚ) ≤ 2) ∧
    frameCount [[(1 : ℚ)].map (fun v => v / 2)] ≤
      frameCount [[(1 : ℚ)].map (fun v => v / 1)] :=
  ⟨⟨by norm_num, by norm_num⟩,
    claim_C7_alpha_scaling.2 [(1 : ℚ)] 1 2 (by norm_num) (by norm_num)⟩

/-- C8: when the predicted duration vector sums to ≤ 0, `generate` replaces
every per-token duration with the fixed floor constant 2 before length
regulation, so regulation yields exactly `2 * (number of tokens)` output
frames — at least 2 frames for every token, each token receiving exactly 2. -/
theorem claim_C8_duration_floor (d : List ℚ) (hne : d ≠ []) (hsum : d.sum ≤ 0) :
    applyDurFloor d = List.replicate d.length 2 ∧
    frameCount [applyDurFloor d] = 2 * d.length ∧
    (∀ j, j < d.length →
      ((build_index [applyDurFloor d]).getD 0 []).count ((j : ℕ) : ℤ) = 2) := by
  have hT : 0 < d.length := List.length_pos.mpr hne
  have hfloor : applyDurFloor d = List.replicate d.length 2 := by
    rw [applyDurFloor, if_pos hsum, List.map_const']
  have hclamp : clampRow (List.replicate d.length (2 : ℚ)) =
      List.replicate d.length (2 : ℚ) := by
    apply clampRow_eq_self
    intro v hv
    rw [List.eq_of_mem_replicate hv]
    norm_num
  have htot_getD : ∀ j, j < d.length →
      (totRow (List.replicate d.length (2 : ℚ))).getD j 0 = 2 * ((j : ℤ) + 1) := by
    intro j hj
    unfold totRow cumTrunc cumsum
    rw [hclamp, getD_map_truncQ,
      cumsumFrom_replicate_getD 2 d.length 0 j hj, zero_add,
      show ((j : ℚ) + 1) * 2 = (((2 * (j + 1) : ℤ)) : ℚ) by push_cast; ring,
      truncQ_intCast]
  have htot_last : (totRow (List.replicate d.length (2 : ℚ))).getLastD 0 =
      2 * (d.length : ℤ) := by
    rw [totRow_getLastD, hclamp, List.sum_replicate, nsmul_eq_mul,
      show ((d.length : ℚ)) * 2 = (((2 * d.length : ℤ)) : ℚ) by push_cast; ring,
      truncQ_intCast]
  have hfc : frameCount [List.replicate d.length (2 : ℚ)] = 2 * d.length := by
    rw [frameCount_singleton, htot_last]
    omega
  refine ⟨hfloor, by rw [hfloor, hfc], ?_⟩
  intro j hj
  rw [hfloor]
  have hrep_ne : List.replicate d.length (2 : ℚ) ≠ [] := by
    intro hc
    have hcl := congrArg List.length hc
    simp only [List.length_replicate, List.length_nil] at hcl
    omega
  rw [count_frames_token _ j hrep_ne (by simpa using hj), htot_getD j hj]
  by_cases h0 : j = 0
  · subst h0
    rw [show prevTot (totRow (List.replicate d.length (2 : ℚ))) 0 = 0 from rfl]
    omega
  · rw [show prevTot (totRow (List.replicate d.length (2 : ℚ))) j =
        (totRow (List.replicate d.length (2 : ℚ))).getD (j - 1) 0 from by
          unfold prevTot; rw [if_neg h0],
      htot_getD (j - 1) (by omega)]
    omega

theorem claim_C8_duration_floor_witness :
    (([(0 : ℚ)] ≠ []) ∧ ([(0 : ℚ)].sum ≤ 0)) ∧
    (applyDurFloor [(0 : ℚ)] = List.replicate [(0 : ℚ)].length 2 ∧
      frameCount [applyDurFloor [(0 : ℚ)]] = 2 * [(0 : ℚ)].length ∧
      (∀ j, j < [(0 : ℚ)].length →
        ((build_index [applyDurFloor [(0 : ℚ)]]).getD 0 []).count
          ((j : ℕ) : ℤ) = 2)) :=
  ⟨⟨by simp, by norm_num⟩,
    claim_C8_duration_floor [(0 : ℚ)] (by simp) (by norm_num)⟩

/-- C9: `generate` substitutes a single default token (ID 0) for a
zero-length token sequence before any computation, so the rest of the
pipeline always receives a sequence of length ≥ 1 and no error is
surfaced to the caller. -/
theorem claim_C9_empty_input_guard (x : List ℕ) :
    (x.length = 0 → guardEmptyInput x = [0]) ∧
    1 ≤ (guardEmptyInput x).length := by
  constructor
  · intro h
    rw [guardEmptyInput, if_pos h]
  · rw [guardEmptyInput]
    by_cases h : x.length = 0
    · rw [if_pos h]
      simp
    · rw [if_neg h]
      omega

theorem claim_C9_empty_input_guard_witness :
    guardEmptyInput ([] : List ℕ) = [0] ∧
    1 ≤ (guardEmptyInput ([] : List ℕ)).length :=
  ⟨(claim_C9_empty_input_guard []).1 rfl, (claim_C9_empty_input_guard []).2⟩

/-- C10: `build_index` (hence `LengthRegulator.forward`/`expand`) clamps
negative durations by in-place assignment on its argument: after the call
the caller's duration tensor has every negative entry set to 0, so a
duration input containing a negative entry is not left unchanged. -/
theorem claim_C10_inplace_clamp (ds : List (List ℚ)) (i j : ℕ)
    (hi : i < ds.length) (hj : j < (ds.getD i []).length)
    (hneg : (ds.getD i []).getD j 0 < 0) :
    (∀ (x : List (List ℚ)) (dflt : ℚ),
      (expandSt x dflt ds).1 = clampBatch ds) ∧
    ((buildIndexSt ds).1.getD i []).getD j 0 = 0 ∧
    (buildIndexSt ds).1 ≠ ds := by
  have hentry : ((clampBatch ds).getD i []).getD j 0 = 0 := by
    have hrow : (clampBatch ds).getD i [] = clampRow (ds.getD i []) := by
      rw [clampBatch, List.getD_eq_getElem?_getD, List.getElem?_map,
        List.getElem?_eq_getElem hi]
      simp [List.getD_eq_getElem?_getD, List.getElem?_eq_getElem hi]
    have hgetj : (ds.getD i []).getD j 0 = (ds.getD i [])[j] := by
      rw [List.getD_eq_getElem?_getD, List.getElem?_eq_getElem hj]
      rfl
    rw [hgetj] at hneg
    rw [hrow, clampRow, List.getD_eq_getElem?_getD, List.getElem?_map,
      List.getElem?_eq_getElem hj]
    simp only [Option.map_some', Option.getD_some]
    rw [if_pos hneg]
  refine ⟨fun x dflt => rfl, hentry, ?_⟩
  intro hc
  have hc' : clampBatch ds = ds := hc
  have hsame : ((clampBatch ds).getD i []).getD j 0 =
      (ds.getD i []).getD j 0 := by rw [hc']
  rw [hentry] at hsame
  rw [← hsame] at hneg
  exact lt_irrefl 0 hneg

theorem claim_C10_inplace_clamp_witness :
    ((0 < [[(-1 : ℚ)]].length) ∧ (0 < ([[(-1 : ℚ)]].getD 0 []).length) ∧
      (([[(-1 : ℚ)]].getD 0 []).getD 0 0 < 0)) ∧
    ((∀ (x : List (List ℚ)) (dflt : ℚ),
        (expandSt x dflt [[(-1 : ℚ)]]).1 = clampBatch [[(-1 : ℚ)]]) ∧
      ((buildIndexSt [[(-1 : ℚ)]]).1.getD 0 []).getD 0 0 = 0 ∧
      (buildIndexSt [[(-1 : ℚ)]]).1 ≠ [[(-1 : ℚ)]]) :=
  ⟨⟨by norm_num, by norm_num, by norm_num⟩,
    claim_C10_inplace_clamp [[(-1 : ℚ)]] 0 0 (by norm_num) (by norm_num)
      (by norm_num)⟩

end LightTTS
